import Mathlib

/-!
Shallow embedding of the `impersonate` Markov-chain text generator
(`src/lib.rs`, `src/trainers/weechat.rs`).

Rust `HashMap`s are modelled as association lists (`List (key × value)`):
`entry`/`or_insert` updates the first entry with the given key or appends a
fresh one, and iteration (`keys().nth`, `iter().collect()`) enumerates the
entries in list order.  A `HashMap`'s iteration order is unspecified in Rust;
every theorem below either does not depend on the order or quantifies over
the random index used to pick an element, so the insertion order used here is
a faithful representative.

Randomness (`rand::thread_rng`) is modelled by an oracle `rng : Nat → Nat`:
the i-th call to `gen_range(0, n)` with `0 < n` returns `rng i % n`, which
ranges over exactly the values `0..n-1` as the oracle varies.  A call
`gen_range(0, 0)` panics in the `rand` crate ("cannot sample empty range");
panics are modelled explicitly (`GenWords.panicEmptyRange` / `Option.none`).
-/

set_option autoImplicit false

namespace Impersonate

universe u

variable {α : Type u}

/-- `Wording` (src/lib.rs): the smallest amount of wording used to represent
Markov states.  `words` are the parts of the words forming the wording. -/
structure Wording where
  words : List String
deriving DecidableEq, Repr

/-- `Transition` (src/lib.rs): number of occurrences a wording was found as a
next wording. -/
structure Transition where
  count : Nat
deriving DecidableEq, Repr

/-- `impl Default for Transition`: count 0. -/
def Transition.default : Transition := ⟨0⟩

/-- `State` (src/lib.rs): a set of Markov transitions,
`nexts : HashMap<Wording, Transition>` modelled as an association list. -/
structure State where
  nexts : List (Wording × Transition)
deriving DecidableEq, Repr

/-- `impl Default for State`: empty map. -/
def State.default : State := ⟨[]⟩

/-- `MarkovChainGenerator` (src/lib.rs): a set of Markov states,
`states : HashMap<Wording, State>` modelled as an association list. -/
structure MarkovChainGenerator where
  states : List (Wording × State)
deriving DecidableEq, Repr

/-- `MarkovChainGenerator::new`: empty graph. -/
def MarkovChainGenerator.new : MarkovChainGenerator := ⟨[]⟩

/-- `LearningParameters` (src/lib.rs). -/
structure LearningParameters where
  wording_size : Nat
deriving DecidableEq, Repr

/-- `ChainParameters` (src/lib.rs). -/
structure ChainParameters where
  max_state_traversal : Option Nat
deriving DecidableEq, Repr

/-- `ChainError` (src/lib.rs). -/
inductive ChainError where
  | TooFewInitialStates : Nat → ChainError
deriving DecidableEq, Repr

/-- Rust `str::split(' ')` on a character list: split at every single space
character, keeping empty segments (so `"".split(' ') = [""]` and
`" ".split(' ') = ["", ""]`).  The result is always non-empty. -/
def splitSpaceChars : List Char → List (List Char)
  | [] => [[]]
  | c :: rest =>
    if c = ' ' then [] :: splitSpaceChars rest
    else
      match splitSpaceChars rest with
      | [] => [[c]]
      | t :: ts => (c :: t) :: ts

/-- `line.split(' ')` with each segment collected to an owned `String`. -/
def splitSpace (s : String) : List String :=
  (splitSpaceChars s.toList).map (fun cs => String.mk cs)

/-- Fuel-indexed helper for `chunkList`; each step consumes at least the head
of the list, so any fuel at least the list's length gives the same result
(`chunkAux_fuel_irrel`).  The fuel only makes the recursion structural. -/
def chunkAux (n : Nat) : Nat → List α → List (List α)
  | _, [] => []
  | 0, _ :: _ => []
  | fuel + 1, x :: xs => (x :: xs.take (n - 1)) :: chunkAux n fuel (xs.drop (n - 1))

/-- `itertools`' `chunks(n)`: consecutive groups of `n` elements, the last
group possibly shorter (the recursion `chunkList_cons` below).  (For `n = 0`
itertools panics; all uses below have `n ≥ 1`.) -/
def chunkList (n : Nat) (l : List α) : List (List α) :=
  chunkAux n l.length l

/-- `MarkovChainGenerator::chunk_line`: split a line into a chunk of
`Wording`s. -/
def MarkovChainGenerator.chunk_line (learn_param : LearningParameters)
    (line : String) : List Wording :=
  (chunkList learn_param.wording_size (splitSpace line)).map (fun chunk => ⟨chunk⟩)

/-- `itertools`' `tuple_windows` for pairs: overlapping adjacent pairs. -/
def tupleWindows (l : List α) : List (α × α) :=
  l.zip l.tail

/-- `state.nexts.entry(wording2).or_default().count += 1` on the association
list: bump the first entry for `w2`, or append a fresh entry with count
`Transition.default.count + 1 = 1`. -/
def bumpNexts (w2 : Wording) : List (Wording × Transition) → List (Wording × Transition)
  | [] => [(w2, ⟨Transition.default.count + 1⟩)]
  | (a, t) :: rest =>
    if a = w2 then (a, ⟨t.count + 1⟩) :: rest else (a, t) :: bumpNexts w2 rest

/-- The body of `train`'s loop for one adjacent pair:
`self.states.entry(wording1).or_insert(State::default())` followed by the
count bump for `wording2`. -/
def trainPair (states : List (Wording × State)) (w1 w2 : Wording) :
    List (Wording × State) :=
  match states with
  | [] => [(w1, ⟨bumpNexts w2 State.default.nexts⟩)]
  | (a, st) :: rest =>
    if a = w1 then (a, ⟨bumpNexts w2 st.nexts⟩) :: rest
    else (a, st) :: trainPair rest w1 w2

/-- `MarkovChainGenerator::train`: chunk the line and record every adjacent
pair of wordings. -/
def MarkovChainGenerator.train (g : MarkovChainGenerator)
    (learn_param : LearningParameters) (line : String) : MarkovChainGenerator :=
  let chunks := MarkovChainGenerator.chunk_line learn_param line
  ⟨(tupleWindows chunks).foldl (fun s p => trainPair s p.1 p.2) g.states⟩

/-- First-match lookup in an association list (`HashMap::get` / the map
behind `entry`). -/
def alookup {β : Type u} [DecidableEq α] : List (α × β) → α → Option β
  | [], _ => none
  | (a, b) :: t, k => if a = k then some b else alookup t k

/-- `usize::max_value()` on a 64-bit target. -/
def USIZE_MAX : Nat := 2 ^ 64 - 1

/-- Stable insertion of one entry into a list sorted by transition count. -/
def insertByCount (x : Wording × Transition) :
    List (Wording × Transition) → List (Wording × Transition)
  | [] => [x]
  | y :: ys => if x.2.count ≤ y.2.count then x :: y :: ys else y :: insertByCount x ys

/-- `states.sort_by(|(_, a), (_, b)| a.count.cmp(&b.count))`: Rust's
`sort_by` is a stable sort; any two stable sorts with the same comparator
produce the same list, so it is modelled by stable insertion sort. -/
def sortByCount : List (Wording × Transition) → List (Wording × Transition)
  | [] => []
  | x :: xs => insertByCount x (sortByCount xs)

/-- The `for _ in 0..max_state_traversal.unwrap_or(usize::max_value())` loop
of `generate_chain`, returning the list of wordings appended after the
starting one (`none` models the `gen_range(0, 0)` panic that fires when the
current key's successor list is empty).  `i` indexes the rng oracle. -/
def genLoop (states : List (Wording × State)) (rng : Nat → Nat) :
    Nat → Nat → Wording → Option (List Wording)
  | 0, _, _ => some []
  | fuel + 1, i, key =>
    match alookup states key with
    | none => some []
    | some st =>
      let nexts := sortByCount st.nexts
      if h : nexts.length = 0 then none
      else
        let key2 := (nexts.get ⟨rng i % nexts.length, Nat.mod_lt _ (Nat.pos_of_ne_zero h)⟩).1
        match genLoop states rng fuel (i + 1) key2 with
        | none => none
        | some rest => some (key2 :: rest)

/-- Outcome of `generate_chain` at the level of the visited wordings. -/
inductive GenWords where
  | panicEmptyRange : GenWords
  | err : ChainError → GenWords
  | ok : List Wording → GenWords
deriving DecidableEq, Repr

/-- `MarkovChainGenerator::generate_chain`, tracking the sequence of visited
wordings instead of the assembled string.  The initial
`rng.gen_range(0, self.states.len())` panics when the graph is empty;
otherwise `self.states.keys().nth(ri)` picks the `ri`-th key, with the
`ok_or_else(TooFewInitialStates)` fallback kept as in the source. -/
def MarkovChainGenerator.generate_words (g : MarkovChainGenerator)
    (chain_param : ChainParameters) (rng : Nat → Nat) : GenWords :=
  if g.states.length = 0 then GenWords.panicEmptyRange
  else
    let ri := rng 0 % g.states.length
    match (g.states.map Prod.fst)[ri]? with
    | none => GenWords.err (ChainError.TooFewInitialStates g.states.length)
    | some key =>
      match genLoop g.states rng (chain_param.max_state_traversal.getD USIZE_MAX) 1 key with
      | none => GenWords.panicEmptyRange
      | some rest => GenWords.ok (key :: rest)

/-- `impl fmt::Display for Wording`: first word, then `" {word}"` for each
remaining word.  (On an empty `words` vector the Rust code would panic
slicing `words[1..]`; such a wording is never produced by `chunk_line`.) -/
def Wording.fmt (w : Wording) : String :=
  match w.words with
  | [] => ""
  | x :: rest => rest.foldl (fun acc t => acc ++ " " ++ t) x

/-- `output = key.to_string()` followed by `write!(output, " {}", key)` per
hop. -/
def renderChain : List Wording → String
  | [] => ""
  | w :: rest => rest.foldl (fun acc k => acc ++ " " ++ Wording.fmt k) (Wording.fmt w)

/-- Outcome of `generate_chain` as in the source: a `String` on success. -/
inductive GenResult where
  | panicEmptyRange : GenResult
  | err : ChainError → GenResult
  | ok : String → GenResult
deriving DecidableEq, Repr

/-- `MarkovChainGenerator::generate_chain`: the assembled output string. -/
def MarkovChainGenerator.generate_chain (g : MarkovChainGenerator)
    (chain_param : ChainParameters) (rng : Nat → Nat) : GenResult :=
  match g.generate_words chain_param rng with
  | GenWords.panicEmptyRange => GenResult.panicEmptyRange
  | GenWords.err e => GenResult.err e
  | GenWords.ok chain => GenResult.ok (renderChain chain)

/-! ### Weechat trainer (src/trainers/weechat.rs)

`REGEX_LINE = (\d{4}-\d{2}-\d{2}\s+)?\d{2}:\d{2}:\d{2}\s+(.*)` is modelled
directly: an unanchored leftmost search; at each position the optional date
group is tried first (greedy `?`), `\s+` greedily consumes a maximal
whitespace run, and the second capture group is the remainder of the line.
`\s` is modelled by its ASCII subset, which covers every claim below. -/

/-- ASCII subset of the regex class `\s`. -/
def isWsChar (c : Char) : Bool :=
  c = ' ' || c = '\t' || c = '\n' || c = '\r' || c = '\x0b' || c = '\x0c'

/-- Match exactly `n` decimal digits, returning the rest. -/
def matchDigits : Nat → List Char → Option (List Char)
  | 0, cs => some cs
  | _ + 1, [] => none
  | n + 1, c :: rest => if c.isDigit then matchDigits n rest else none

/-- Match one literal character, returning the rest. -/
def matchChar (ch : Char) : List Char → Option (List Char)
  | [] => none
  | c :: rest => if c = ch then some rest else none

/-- Match `\s+` greedily: at least one whitespace char, then the maximal
whitespace run. -/
def matchWsPlus : List Char → Option (List Char)
  | [] => none
  | c :: rest => if isWsChar c then some (rest.dropWhile isWsChar) else none

/-- Match `\d{2}:\d{2}:\d{2}\s+` and return the rest of the line, which is
exactly the content of capture group 2 (`(.*)`). -/
def matchTimeGroup (cs : List Char) : Option (List Char) := do
  let cs ← matchDigits 2 cs
  let cs ← matchChar ':' cs
  let cs ← matchDigits 2 cs
  let cs ← matchChar ':' cs
  let cs ← matchDigits 2 cs
  matchWsPlus cs

/-- Match the optional date group `\d{4}-\d{2}-\d{2}\s+`. -/
def matchDateGroup (cs : List Char) : Option (List Char) := do
  let cs ← matchDigits 4 cs
  let cs ← matchChar '-' cs
  let cs ← matchDigits 2 cs
  let cs ← matchChar '-' cs
  let cs ← matchDigits 2 cs
  matchWsPlus cs

/-- One attempt of `REGEX_LINE` at a fixed position: with the optional date
group if possible, without it otherwise.  Returns capture group 2. -/
def matchLineAt (cs : List Char) : Option (List Char) :=
  (matchDateGroup cs >>= matchTimeGroup) <|> matchTimeGroup cs

/-- `REGEX_LINE.captures(line)`, returning capture group 2 of the leftmost
match. -/
def regexSearchGroup2 : List Char → Option (List Char)
  | [] => matchLineAt []
  | c :: rest => matchLineAt (c :: rest) <|> regexSearchGroup2 rest

/-- `WeechatLogTrainer::filter_noise`: keep only lines the regex matches
whose capture group 2 does not start with `--`, `<--` or `-->`. -/
def WeechatLogTrainer.filter_noise (lines : List String) : List String :=
  lines.filter (fun line =>
    match regexSearchGroup2 line.toList with
    | some g2 =>
      !("--".toList.isPrefixOf g2 || "<--".toList.isPrefixOf g2
        || "-->".toList.isPrefixOf g2)
    | none => false)

/-- Rust `str::trim` (ASCII whitespace suffices for the claims below). -/
def trimChars (cs : List Char) : List Char :=
  ((cs.dropWhile isWsChar).reverse.dropWhile isWsChar).reverse

/-- The body of `WeechatLogTrainer::cleanup`'s loop for one line: if the
regex matches, strip a leading `@`, then either strip the author name and
trim (line starts with the author) or replace the line by the empty string;
lines the regex does not match are left unchanged. -/
def WeechatLogTrainer.cleanupLine (author : List Char) (line : List Char) : List Char :=
  match regexSearchGroup2 line with
  | none => line
  | some g2 =>
    let input := match g2 with
      | c :: rest => if c = '@' then rest else g2
      | [] => g2
    if author.isPrefixOf input then trimChars (input.drop author.length)
    else []

/-- `WeechatLogTrainer::cleanup`: rewrite every line, then drop the empty
ones. -/
def WeechatLogTrainer.cleanup (author : String) (lines : List String) : List String :=
  (lines.map (fun l => String.mk (WeechatLogTrainer.cleanupLine author.toList l.toList))).filter
    (fun l => !(l == ""))

/-! ### Derived observers and invariants used by the theorems -/

/-- Count stored for key `w` in a transition map, `0` when absent. -/
def countIn (n : List (Wording × Transition)) (w : Wording) : Nat :=
  ((alookup n w).map Transition.count).getD 0

/-- Transition entry recorded for the pair `(w1, w2)`. -/
def succLookup (states : List (Wording × State)) (w1 w2 : Wording) : Option Transition :=
  (alookup states w1).bind (fun st => alookup st.nexts w2)

/-- Count recorded for the pair `(w1, w2)`, `0` when absent. -/
def succCount (states : List (Wording × State)) (w1 w2 : Wording) : Nat :=
  ((succLookup states w1 w2).map Transition.count).getD 0

/-- Successor keys stored for `w1` (in map order). -/
def succKeys (states : List (Wording × State)) (w1 : Wording) : List Wording :=
  ((alookup states w1).map (fun st => st.nexts.map Prod.fst)).getD []

/-- A sequence of `train` calls, each with its own parameters and line. -/
def trainAll (g : MarkovChainGenerator)
    (inputs : List (LearningParameters × String)) : MarkovChainGenerator :=
  inputs.foldl (fun g pl => g.train pl.1 pl.2) g

/-- The implicit graph invariant: every stored `State` has a non-empty
successor map, and every stored `Transition` has count at least 1. -/
def GoodGraph (states : List (Wording × State)) : Prop :=
  ∀ p ∈ states, p.2.nexts ≠ [] ∧ ∀ q ∈ p.2.nexts, 1 ≤ q.2.count

/-! ## Helper lemmas -/

@[simp] theorem alookup_nil {β : Type u} [DecidableEq α] (k : α) :
    alookup ([] : List (α × β)) k = none := rfl

@[simp] theorem alookup_cons {β : Type u} [DecidableEq α] (a : α) (b : β)
    (t : List (α × β)) (k : α) :
    alookup ((a, b) :: t) k = if a = k then some b else alookup t k := rfl

theorem chunkAux_fuel_irrel (n : Nat) (fuel₁ fuel₂ : Nat) (l : List α)
    (h₁ : l.length ≤ fuel₁) (h₂ : l.length ≤ fuel₂) :
    chunkAux n fuel₁ l = chunkAux n fuel₂ l := by
  induction fuel₁ generalizing fuel₂ l with
  | zero =>
    cases l with
    | nil => cases fuel₂ <;> rfl
    | cons x xs => simp at h₁
  | succ f ih =>
    cases l with
    | nil => cases fuel₂ <;> rfl
    | cons x xs =>
      cases fuel₂ with
      | zero => simp at h₂
      | succ f₂ =>
        simp only [chunkAux]
        have hd : (xs.drop (n - 1)).length ≤ xs.length := by
          simp [List.length_drop]
        simp only [List.length_cons] at h₁ h₂
        rw [ih f₂ (xs.drop (n - 1)) (by omega) (by omega)]

@[simp] theorem chunkList_nil (n : Nat) : chunkList n ([] : List α) = [] := rfl

@[simp] theorem chunkList_cons (n : Nat) (x : α) (xs : List α) :
    chunkList n (x :: xs) = (x :: xs.take (n - 1)) :: chunkList n (xs.drop (n - 1)) := by
  have hd : (xs.drop (n - 1)).length ≤ xs.length := by simp [List.length_drop]
  simp only [chunkList, List.length_cons, chunkAux]
  rw [chunkAux_fuel_irrel n xs.length ((xs.drop (n - 1)).length) (xs.drop (n - 1)) hd le_rfl]

theorem countIn_bumpNexts (n : List (Wording × Transition)) (w2 w : Wording) :
    countIn (bumpNexts w2 n) w = countIn n w + (if w2 = w then 1 else 0) := by
  induction n with
  | nil =>
    by_cases h : w2 = w <;>
      simp [bumpNexts, countIn, alookup, Transition.default, h]
  | cons p rest ih =>
    obtain ⟨a, t⟩ := p
    by_cases ha : a = w2
    · subst ha
      by_cases hw : a = w <;>
        simp [bumpNexts, countIn, alookup, hw]
    · by_cases hw : a = w
      · have hne : ¬w2 = w := fun h => ha (hw.trans h.symm)
        have hne2 : ¬w = w2 := fun h => ha (hw.trans h)
        simp [bumpNexts, countIn, alookup, ha, hw, hne, hne2]
      · simp only [bumpNexts, if_neg ha]
        simpa [countIn, alookup, hw] using ih

theorem keys_bumpNexts (n : List (Wording × Transition)) (w2 : Wording) :
    (bumpNexts w2 n).map Prod.fst =
      if w2 ∈ n.map Prod.fst then n.map Prod.fst else n.map Prod.fst ++ [w2] := by
  induction n with
  | nil => simp [bumpNexts]
  | cons p rest ih =>
    obtain ⟨a, t⟩ := p
    by_cases ha : a = w2
    · subst ha
      simp [bumpNexts]
    · have hne : ¬w2 = a := fun h => ha h.symm
      by_cases hmem : w2 ∈ rest.map Prod.fst <;>
        simp [bumpNexts, ha, hne, hmem, ih]

theorem bumpNexts_ne_nil (n : List (Wording × Transition)) (w2 : Wording) :
    bumpNexts w2 n ≠ [] := by
  cases n with
  | nil => simp [bumpNexts]
  | cons p rest =>
    obtain ⟨a, t⟩ := p
    by_cases ha : a = w2 <;> simp [bumpNexts, ha]

theorem counts_bumpNexts (n : List (Wording × Transition)) (w2 : Wording)
    (h : ∀ q ∈ n, 1 ≤ q.2.count) : ∀ q ∈ bumpNexts w2 n, 1 ≤ q.2.count := by
  induction n with
  | nil =>
    intro q hq
    simp [bumpNexts, Transition.default] at hq
    simp [hq]
  | cons p rest ih =>
    obtain ⟨a, t⟩ := p
    intro q hq
    by_cases ha : a = w2
    · subst ha
      simp [bumpNexts] at hq
      rcases hq with hq | hq
      · simp [hq]
      · exact h q (List.mem_cons_of_mem _ hq)
    · simp only [bumpNexts, if_neg ha, List.mem_cons] at hq
      rcases hq with hq | hq
      · subst hq
        exact h (a, t) (List.mem_cons_self _ _)
      · exact ih (fun q hq => h q (List.mem_cons_of_mem _ hq)) q hq

theorem succCount_trainPair (s : List (Wording × State)) (a b w1 w2 : Wording) :
    succCount (trainPair s a b) w1 w2 =
      succCount s w1 w2 + (if a = w1 ∧ b = w2 then 1 else 0) := by
  induction s with
  | nil =>
    by_cases ha : a = w1
    · subst ha
      have := countIn_bumpNexts State.default.nexts b w2
      by_cases hb : b = w2 <;>
        simp [trainPair, succCount, succLookup, alookup, countIn, State.default,
          Transition.default, hb] at this ⊢ <;>
        simp [this, hb]
    · simp [trainPair, succCount, succLookup, alookup, ha]
  | cons p rest ih =>
    obtain ⟨k, st⟩ := p
    by_cases hk : k = a
    · subst hk
      by_cases hw : k = w1
      · subst hw
        have := countIn_bumpNexts st.nexts b w2
        by_cases hb : b = w2 <;>
          simp [trainPair, succCount, succLookup, alookup, countIn, hb] at this ⊢ <;>
          simp [this, hb]
      · simp [trainPair, succCount, succLookup, alookup, hw]
    · by_cases hw : k = w1
      · subst hw
        have : ¬a = k := fun h => hk h.symm
        simp [trainPair, succCount, succLookup, alookup, hk, this]
      · simpa [trainPair, succCount, succLookup, alookup, hk, hw] using ih

theorem succKeys_trainPair_self (s : List (Wording × State)) (w1 w2 : Wording) :
    succKeys (trainPair s w1 w2) w1 =
      if w2 ∈ succKeys s w1 then succKeys s w1 else succKeys s w1 ++ [w2] := by
  induction s with
  | nil =>
    simp [trainPair, succKeys, alookup, keys_bumpNexts, State.default]
  | cons p rest ih =>
    obtain ⟨k, st⟩ := p
    by_cases hk : k = w1
    · subst hk
      simp only [trainPair, if_pos rfl, succKeys, alookup_cons]
      simp [keys_bumpNexts]
    · simpa [trainPair, succKeys, alookup, hk] using ih

theorem keys_trainPair (s : List (Wording × State)) (a b w : Wording) :
    w ∈ (trainPair s a b).map Prod.fst ↔ w ∈ s.map Prod.fst ∨ w = a := by
  induction s with
  | nil => simp [trainPair, eq_comm]
  | cons p rest ih =>
    obtain ⟨k, st⟩ := p
    by_cases hk : k = a
    · subst hk
      have h1 : trainPair ((k, st) :: rest) k b = (k, ⟨bumpNexts b st.nexts⟩) :: rest := by
        simp [trainPair]
      rw [h1]
      simp only [List.map_cons, List.mem_cons]
      tauto
    · simp only [trainPair, if_neg hk, List.map_cons, List.mem_cons]
      rw [ih]
      tauto

theorem mem_insertByCount (x y : Wording × Transition)
    (l : List (Wording × Transition)) :
    y ∈ insertByCount x l ↔ y = x ∨ y ∈ l := by
  induction l with
  | nil => simp [insertByCount]
  | cons z zs ih =>
    by_cases h : x.2.count ≤ z.2.count <;> simp [insertByCount, h, ih] <;> tauto

theorem length_insertByCount (x : Wording × Transition)
    (l : List (Wording × Transition)) :
    (insertByCount x l).length = l.length + 1 := by
  induction l with
  | nil => simp [insertByCount]
  | cons z zs ih =>
    by_cases h : x.2.count ≤ z.2.count <;> simp [insertByCount, h, ih]

theorem mem_sortByCount (y : Wording × Transition) (l : List (Wording × Transition)) :
    y ∈ sortByCount l ↔ y ∈ l := by
  induction l with
  | nil => simp [sortByCount]
  | cons z zs ih => simp [sortByCount, mem_insertByCount, ih]

theorem length_sortByCount (l : List (Wording × Transition)) :
    (sortByCount l).length = l.length := by
  induction l with
  | nil => simp [sortByCount]
  | cons z zs ih => simp [sortByCount, length_insertByCount, ih]

theorem tupleWindows_cons_cons (x y : α) (ys : List α) :
    tupleWindows (x :: y :: ys) = (x, y) :: tupleWindows (y :: ys) := rfl

theorem mem_tupleWindows (l : List α) (i : Nat) (a b : α)
    (ha : l[i]? = some a) (hb : l[i + 1]? = some b) : (a, b) ∈ tupleWindows l := by
  induction l generalizing i with
  | nil => simp at ha
  | cons x xs ih =>
    cases i with
    | zero =>
      cases xs with
      | nil => simp at hb
      | cons y ys =>
        simp only [List.getElem?_cons_zero, Option.some_inj] at ha
        simp only [List.getElem?_cons_succ, List.getElem?_cons_zero,
          Option.some_inj] at hb
        subst ha; subst hb
        exact List.mem_cons_self _ _
    | succ j =>
      simp only [List.getElem?_cons_succ] at ha hb
      cases xs with
      | nil => simp at ha
      | cons y ys =>
        rw [tupleWindows_cons_cons]
        exact List.mem_cons_of_mem _ (ih j ha hb)

theorem splitSpaceChars_ne_nil (cs : List Char) : splitSpaceChars cs ≠ [] := by
  induction cs with
  | nil => simp [splitSpaceChars]
  | cons c rest ih =>
    by_cases h : c = ' '
    · simp [splitSpaceChars, h]
    · simp only [splitSpaceChars, if_neg h]
      cases hs : splitSpaceChars rest <;> simp

theorem splitSpace_ne_nil (s : String) : splitSpace s ≠ [] := by
  simp [splitSpace, splitSpaceChars_ne_nil]

theorem chunkList_ne_nil (n : Nat) (l : List α) (h : l ≠ []) :
    chunkList n l ≠ [] := by
  cases l with
  | nil => exact absurd rfl h
  | cons x xs => rw [chunkList_cons]; simp

theorem chunkList_eq_singleton (n : Nat) (l : List α) (hne : l ≠ [])
    (hlen : l.length ≤ n) : chunkList n l = [l] := by
  cases l with
  | nil => exact absurd rfl hne
  | cons x xs =>
    rw [chunkList_cons]
    simp only [List.length_cons] at hlen
    have ht : xs.take (n - 1) = xs := List.take_of_length_le (by omega)
    have hd : xs.drop (n - 1) = [] := List.drop_eq_nil_of_le (by omega)
    rw [ht, hd, chunkList_nil]

theorem chunkList_length_eq (n : Nat) (hn : 1 ≤ n) :
    ∀ (N : Nat) (l : List α), l.length ≤ N → l ≠ [] →
      (chunkList n l).length = (l.length + n - 1) / n := by
  intro N
  induction N with
  | zero =>
    intro l h hne
    cases l with
    | nil => exact absurd rfl hne
    | cons x xs => simp at h
  | succ N ih =>
    intro l h hne
    cases l with
    | nil => exact absurd rfl hne
    | cons x xs =>
      rw [chunkList_cons]
      by_cases hxs : xs.drop (n - 1) = []
      · have hlen : xs.length ≤ n - 1 := by
          have hld := congrArg List.length hxs
          simp only [List.length_drop, List.length_nil] at hld
          omega
        rw [hxs, chunkList_nil]
        have e2 : (x :: xs).length + n - 1 = xs.length + n := by
          simp only [List.length_cons]; omega
        have h1 : (xs.length + n) / n = 1 :=
          Nat.div_eq_of_lt_le (k := 1) (by omega) (by omega)
        rw [e2, h1]
        simp
      · have hg : n - 1 < xs.length := by
          by_contra hc
          push_neg at hc
          exact hxs (List.drop_eq_nil_of_le hc)
        have hlen' : (xs.drop (n - 1)).length ≤ N := by
          simp only [List.length_drop]
          simp only [List.length_cons] at h
          omega
        rw [List.length_cons, ih (xs.drop (n - 1)) hlen' hxs]
        simp only [List.length_drop, List.length_cons]
        have e1 : xs.length - (n - 1) + n - 1 = xs.length := by omega
        have e2 : xs.length + 1 + n - 1 = xs.length + n := by omega
        rw [e1, e2, Nat.add_div_right _ (by omega)]

theorem chunkList_chunk_sizes (n : Nat) (hn : 1 ≤ n) :
    ∀ (N : Nat) (l : List α), l.length ≤ N →
      (∀ c ∈ (chunkList n l).dropLast, c.length = n) ∧
      (∀ c, (chunkList n l).getLast? = some c → c.length ≤ n) := by
  intro N
  induction N with
  | zero =>
    intro l h
    cases l with
    | nil => simp
    | cons x xs => simp at h
  | succ N ih
  =>
    intro l h
    cases l with
    | nil => simp
    | cons x xs =>
      rw [chunkList_cons]
      by_cases hxs : xs.drop (n - 1) = []
      · have hlen : xs.length ≤ n - 1 := by
          have hld := congrArg List.length hxs
          simp only [List.length_drop, List.length_nil] at hld
          omega
        rw [hxs, chunkList_nil]
        constructor
        · simp
        · intro c hc
          simp only [List.getLast?_singleton, Option.some_inj] at hc
          subst hc
          simp only [List.length_cons]
          have := List.length_take_le (n - 1) xs
          omega
      · have hg : n - 1 < xs.length := by
          by_contra hc
          push_neg at hc
          exact hxs (List.drop_eq_nil_of_le hc)
        have hlen' : (xs.drop (n - 1)).length ≤ N := by
          simp only [List.length_drop]
          simp only [List.length_cons] at h
          omega
        obtain ⟨ihA, ihB⟩ := ih (xs.drop (n - 1)) hlen'
        have hrec : chunkList n (xs.drop (n - 1)) ≠ [] := chunkList_ne_nil n _ hxs
        cases hR : chunkList n (xs.drop (n - 1)) with
        | nil => exact absurd hR hrec
        | cons r rs =>
          rw [hR] at ihA ihB
          constructor
          · intro c hc
            rw [List.dropLast_cons₂] at hc
            rcases List.mem_cons.mp hc with hc | hc
            · subst hc
              simp only [List.length_cons]
              rw [List.length_take]
              omega
            · exact ihA c hc
          · intro c hc
            rw [List.getLast?_cons_cons] at hc
            exact ihB c hc

theorem goodGraph_trainPair (s : List (Wording × State)) (a b : Wording)
    (h : GoodGraph s) : GoodGraph (trainPair s a b) := by
  induction s with
  | nil =>
    intro p hp
    simp only [trainPair, List.mem_singleton] at hp
    subst hp
    refine ⟨bumpNexts_ne_nil _ _, counts_bumpNexts _ _ ?_⟩
    intro q hq
    simp [State.default] at hq
  | cons hd rest ih =>
    obtain ⟨k, st⟩ := hd
    by_cases hk : k = a
    · intro p hp
      simp only [trainPair, if_pos hk, List.mem_cons] at hp
      rcases hp with hp | hp
      · subst hp
        obtain ⟨h1, h2⟩ := h (k, st) (List.mem_cons_self _ _)
        exact ⟨bumpNexts_ne_nil _ _, counts_bumpNexts _ _ h2⟩
      · exact h p (List.mem_cons_of_mem _ hp)
    · intro p hp
      simp only [trainPair, if_neg hk, List.mem_cons] at hp
      rcases hp with hp | hp
      · subst hp
        exact h (k, st) (List.mem_cons_self _ _)
      · exact ih (fun q hq => h q (List.mem_cons_of_mem _ hq)) p hp

theorem goodGraph_foldl (pairs : List (Wording × Wording))
    (s : List (Wording × State)) (h : GoodGraph s) :
    GoodGraph (pairs.foldl (fun s p => trainPair s p.1 p.2) s) := by
  induction pairs generalizing s with
  | nil => exact h
  | cons p ps ih => exact ih _ (goodGraph_trainPair s p.1 p.2 h)

theorem goodGraph_train (g : MarkovChainGenerator) (lp : LearningParameters)
    (line : String) (h : GoodGraph g.states) :
    GoodGraph (g.train lp line).states :=
  goodGraph_foldl _ _ h

theorem goodGraph_trainAll (inputs : List (LearningParameters × String))
    (g : MarkovChainGenerator) (h : GoodGraph g.states) :
    GoodGraph (trainAll g inputs).states := by
  induction inputs generalizing g with
  | nil => exact h
  | cons pl pls ih => exact ih _ (goodGraph_train g pl.1 pl.2 h)

theorem succCount_foldl_le (pairs : List (Wording × Wording))
    (s : List (Wording × State)) (w1 w2 : Wording) :
    succCount s w1 w2 ≤
      succCount (pairs.foldl (fun s p => trainPair s p.1 p.2) s) w1 w2 := by
  induction pairs generalizing s with
  | nil => exact le_rfl
  | cons p ps ih =>
    calc succCount s w1 w2
        ≤ succCount (trainPair s p.1 p.2) w1 w2 := by
          rw [succCount_trainPair]; omega
      _ ≤ _ := ih _

theorem succCount_foldl_of_mem (pairs : List (Wording × Wording))
    (s : List (Wording × State)) (w1 w2 : Wording)
    (h : (w1, w2) ∈ pairs) :
    1 ≤ succCount (pairs.foldl (fun s p => trainPair s p.1 p.2) s) w1 w2 := by
  induction pairs generalizing s with
  | nil => simp at h
  | cons p ps ih =>
    rcases List.mem_cons.mp h with hp | hp
    · subst hp
      simp only [List.foldl_cons]
      have h1 : 1 ≤ succCount (trainPair s w1 w2) w1 w2 := by
        rw [succCount_trainPair]; simp
      exact le_trans h1 (succCount_foldl_le ps _ w1 w2)
    · exact ih _ hp

theorem keys_foldl (pairs : List (Wording × Wording))
    (s : List (Wording × State)) (w : Wording) :
    w ∈ (pairs.foldl (fun s p => trainPair s p.1 p.2) s).map Prod.fst ↔
      w ∈ s.map Prod.fst ∨ w ∈ pairs.map Prod.fst := by
  induction pairs generalizing s with
  | nil => simp
  | cons p ps ih =>
    simp only [List.foldl_cons, List.map_cons, List.mem_cons]
    rw [ih, keys_trainPair]
    tauto

theorem alookup_mem {β : Type u} [DecidableEq α] (l : List (α × β)) (k : α) (v : β)
    (h : alookup l k = some v) : (k, v) ∈ l := by
  induction l with
  | nil => simp at h
  | cons p t ih =>
    obtain ⟨a, b⟩ := p
    rw [alookup_cons] at h
    by_cases ha : a = k
    · subst ha
      rw [if_pos rfl] at h
      injection h with h
      subst h
      exact List.mem_cons_self _ _
    · rw [if_neg ha] at h
      exact List.mem_cons_of_mem _ (ih h)

theorem genLoop_spec (s : List (Wording × State)) (rng : Nat → Nat) :
    ∀ (fuel i : Nat) (key : Wording) (rest : List Wording),
      genLoop s rng fuel i key = some rest →
      rest.length ≤ fuel ∧
        (rest.length < fuel →
          ∃ w, (key :: rest).getLast? = some w ∧ alookup s w = none) := by
  intro fuel
  induction fuel with
  | zero =>
    intro i key rest h
    simp only [genLoop, Option.some_inj] at h
    subst h
    exact ⟨Nat.le_refl _, fun hc => absurd hc (by omega)⟩
  | succ f ih =>
    intro i key rest h
    simp only [genLoop] at h
    cases hl : alookup s key with
    | none =>
      rw [hl] at h
      simp only [Option.some_inj] at h
      subst h
      refine ⟨by simp, fun _ => ⟨key, ?_, hl⟩⟩
      simp
    | some st =>
      rw [hl] at h
      dsimp only at h
      by_cases hz : (sortByCount st.nexts).length = 0
      · rw [dif_pos hz] at h
        cases h
      · rw [dif_neg hz] at h
        cases hg : genLoop s rng f (i + 1)
            ((sortByCount st.nexts).get
              ⟨rng i % (sortByCount st.nexts).length,
                Nat.mod_lt _ (Nat.pos_of_ne_zero hz)⟩).1 with
        | none =>
          rw [hg] at h
          cases h
        | some r =>
          rw [hg] at h
          simp only [Option.some_inj] at h
          subst h
          obtain ⟨ih1, ih2⟩ := ih (i + 1) _ r hg
          refine ⟨by simpa using Nat.succ_le_succ ih1, fun hlt => ?_⟩
          simp only [List.length_cons] at hlt
          obtain ⟨w, hw1, hw2⟩ := ih2 (by omega)
          exact ⟨w, by rw [List.getLast?_cons_cons]; exact hw1, hw2⟩

theorem genLoop_chain (s : List (Wording × State)) (rng : Nat → Nat) :
    ∀ (fuel i : Nat) (key : Wording) (rest : List Wording),
      genLoop s rng fuel i key = some rest →
      List.Chain'
        (fun a b => ∃ st, alookup s a = some st ∧ b ∈ st.nexts.map Prod.fst)
        (key :: rest) := by
  intro fuel
  induction fuel with
  | zero =>
    intro i key rest h
    simp only [genLoop, Option.some_inj] at h
    subst h
    exact List.chain'_singleton _
  | succ f ih =>
    intro i key rest h
    simp only [genLoop] at h
    cases hl : alookup s key with
    | none =>
      rw [hl] at h
      simp only [Option.some_inj] at h
      subst h
      exact List.chain'_singleton _
    | some st =>
      rw [hl] at h
      dsimp only at h
      by_cases hz : (sortByCount st.nexts).length = 0
      · rw [dif_pos hz] at h
        cases h
      · rw [dif_neg hz] at h
        cases hg : genLoop s rng f (i + 1)
            ((sortByCount st.nexts).get
              ⟨rng i % (sortByCount st.nexts).length,
                Nat.mod_lt _ (Nat.pos_of_ne_zero hz)⟩).1 with
        | none =>
          rw [hg] at h
          cases h
        | some r =>
          rw [hg] at h
          simp only [Option.some_inj] at h
          subst h
          refine List.chain'_cons.mpr ⟨⟨st, hl, ?_⟩, ih (i + 1) _ r hg⟩
          have hmem := List.get_mem (sortByCount st.nexts)
            (rng i % (sortByCount st.nexts).length)
            (Nat.mod_lt _ (Nat.pos_of_ne_zero hz))
          rw [mem_sortByCount] at hmem
          exact List.mem_map_of_mem Prod.fst hmem

theorem genLoop_no_panic (s : List (Wording × State)) (rng : Nat → Nat)
    (hgood : GoodGraph s) :
    ∀ (fuel i : Nat) (key : Wording), genLoop s rng fuel i key ≠ none := by
  intro fuel
  induction fuel with
  | zero =>
    intro i key
    simp [genLoop]
  | succ f ih =>
    intro i key
    simp only [genLoop]
    cases hl : alookup s key with
    | none => simp
    | some st =>
      have hne : st.nexts ≠ [] := (hgood (key, st) (alookup_mem s key st hl)).1
      have hz : ¬(sortByCount st.nexts).length = 0 := by
        rw [length_sortByCount]
        simpa using hne
      dsimp only
      rw [dif_neg hz]
      cases hg : genLoop s rng f (i + 1)
          ((sortByCount st.nexts).get
            ⟨rng i % (sortByCount st.nexts).length,
              Nat.mod_lt _ (Nat.pos_of_ne_zero hz)⟩).1 with
      | none => exact absurd hg (ih (i + 1) _)
      | some r => simp

theorem generate_words_ne_err (g : MarkovChainGenerator) (p : ChainParameters)
    (rng : Nat → Nat) (e : ChainError) : g.generate_words p rng ≠ GenWords.err e := by
  simp only [MarkovChainGenerator.generate_words]
  by_cases hz : g.states.length = 0
  · simp [hz]
  · rw [if_neg hz]
    have hlt : rng 0 % g.states.length < (g.states.map Prod.fst).length := by
      rw [List.length_map]
      exact Nat.mod_lt _ (Nat.pos_of_ne_zero hz)
    rw [List.getElem?_eq_getElem hlt]
    dsimp only
    cases genLoop g.states rng (p.max_state_traversal.getD USIZE_MAX) 1
        ((g.states.map Prod.fst)[rng 0 % g.states.length]) <;> simp

theorem generate_words_ok_elim (g : MarkovChainGenerator) (p : ChainParameters)
    (rng : Nat → Nat) (chain : List Wording)
    (h : g.generate_words p rng = GenWords.ok chain) :
    ∃ key rest, chain = key :: rest ∧
      (g.states.map Prod.fst)[rng 0 % g.states.length]? = some key ∧
      genLoop g.states rng (p.max_state_traversal.getD USIZE_MAX) 1 key = some rest := by
  simp only [MarkovChainGenerator.generate_words] at h
  by_cases hz : g.states.length = 0
  · rw [if_pos hz] at h
    cases h
  · rw [if_neg hz] at h
    cases hk : (g.states.map Prod.fst)[rng 0 % g.states.length]? with
    | none =>
      rw [hk] at h
      dsimp only at h
      cases h
    | some key =>
      rw [hk] at h
      dsimp only at h
      cases hg : genLoop g.states rng (p.max_state_traversal.getD USIZE_MAX) 1 key with
      | none =>
        rw [hg] at h
        cases h
      | some rest =>
        rw [hg] at h
        dsimp only at h
        injection h with h
        subst h
        exact ⟨key, rest, rfl, rfl, hg⟩

theorem keys_train (g : MarkovChainGenerator) (lp : LearningParameters)
    (line : String) (w : Wording) :
    w ∈ (g.train lp line).states.map Prod.fst ↔
      w ∈ g.states.map Prod.fst ∨
        w ∈ (tupleWindows (MarkovChainGenerator.chunk_line lp line)).map Prod.fst := by
  have hst : (g.train lp line).states =
      (tupleWindows (MarkovChainGenerator.chunk_line lp line)).foldl
        (fun s p => trainPair s p.1 p.2) g.states := rfl
  rw [hst, keys_foldl]

theorem keys_trainAll_aux (inputs : List (LearningParameters × String))
    (g : MarkovChainGenerator) (w : Wording) :
    w ∈ (trainAll g inputs).states.map Prod.fst ↔
      w ∈ g.states.map Prod.fst ∨
        ∃ pl ∈ inputs,
          w ∈ (tupleWindows (MarkovChainGenerator.chunk_line pl.1 pl.2)).map Prod.fst := by
  induction inputs generalizing g with
  | nil => simp [trainAll]
  | cons pl pls ih =>
    have hfold : trainAll g (pl :: pls) = trainAll (g.train pl.1 pl.2) pls := rfl
    rw [hfold, ih, keys_train]
    simp only [List.mem_cons]
    constructor
    · rintro ((h | h) | ⟨q, hq, h⟩)
      · exact Or.inl h
      · exact Or.inr ⟨pl, Or.inl rfl, h⟩
      · exact Or.inr ⟨q, Or.inr hq, h⟩
    · rintro (h | ⟨q, hq | hq, h⟩)
      · exact Or.inl (Or.inl h)
      · subst hq
        exact Or.inl (Or.inr h)
      · exact Or.inr ⟨q, hq, h⟩

/-! ## Claim theorems -/

/-- C1: against the claim, `generate_chain` on an empty graph does not return
`TooFewInitialStates(0)`: the initial `rng.gen_range(0, 0)` panics first, for
every `ChainParameters` and every random oracle; moreover no graph whatsoever
can make `generate_chain` return a `ChainError`, so the
`ok_or_else(TooFewInitialStates)` path is dead code. -/
theorem generate_chain_on_empty_graph_panics_not_errors :
    (∀ (p : ChainParameters) (rng : Nat → Nat),
      MarkovChainGenerator.new.generate_chain p rng = GenResult.panicEmptyRange) ∧
    ∀ (g : MarkovChainGenerator) (p : ChainParameters) (rng : Nat → Nat)
      (e : ChainError), g.generate_chain p rng ≠ GenResult.err e := by
  constructor
  · intro p rng
    rfl
  · intro g p rng e
    unfold MarkovChainGenerator.generate_chain
    cases hw : g.generate_words p rng with
    | panicEmptyRange => simp
    | err e2 => exact absurd hw (generate_words_ne_err g p rng e2)
    | ok chain => simp

/-- C2 counterexample: the single-space line `" "` splits into two empty
tokens, so with `wording_size = 1` training on it records the transition
`[""] → [""]` and changes the graph — the claim's whitespace-only case is
false. -/
theorem train_whitespace_line_adds_transition :
    (MarkovChainGenerator.new.train ⟨1⟩ " ").states =
      [(⟨[""]⟩, ⟨[(⟨[""]⟩, ⟨1⟩)]⟩)] ∧
    MarkovChainGenerator.new.train ⟨1⟩ " " ≠ MarkovChainGenerator.new := by
  constructor
  · decide
  · decide

/-- C2 (amended): for every `wording_size ≥ 1` and every line whose
split-on-single-space token count (counting empty tokens) is at most
`wording_size`, chunking produces exactly one Wording and `train` records no
transitions, leaving the graph unchanged. -/
theorem train_short_line_leaves_graph_unchanged
    (g : MarkovChainGenerator) (lp : LearningParameters) (line : String)
    (hw : 1 ≤ lp.wording_size)
    (hlen : (splitSpace line).length ≤ lp.wording_size) :
    (MarkovChainGenerator.chunk_line lp line).length = 1 ∧
    g.train lp line = g := by
  have hone : chunkList lp.wording_size (splitSpace line) = [splitSpace line] :=
    chunkList_eq_singleton _ _ (splitSpace_ne_nil line) hlen
  have hchunk : MarkovChainGenerator.chunk_line lp line = [⟨splitSpace line⟩] := by
    rw [MarkovChainGenerator.chunk_line, hone]
    rfl
  constructor
  · rw [hchunk]
    rfl
  · unfold MarkovChainGenerator.train
    rw [hchunk]
    rfl

/-- C2 witness: concrete instance of the amended claim at `wording_size = 2`
and line `"a"`. -/
theorem train_short_line_leaves_graph_unchanged_witness :
    (MarkovChainGenerator.chunk_line ⟨2⟩ "a").length = 1 ∧
    MarkovChainGenerator.new.train ⟨2⟩ "a" = MarkovChainGenerator.new :=
  train_short_line_leaves_graph_unchanged MarkovChainGenerator.new ⟨2⟩ "a"
    (by decide) (by decide)

/-- C3: after `train`, every adjacent pair of chunked Wordings is recorded
with count at least 1, and re-recording the same pair (the body of `train`'s
loop) increments its count by exactly 1 without creating a duplicate
successor entry. -/
theorem train_records_adjacent_pairs_and_increments_once
    (g : MarkovChainGenerator) (lp : LearningParameters) (line : String)
    (i : Nat) (w1 w2 : Wording)
    (h1 : (MarkovChainGenerator.chunk_line lp line)[i]? = some w1)
    (h2 : (MarkovChainGenerator.chunk_line lp line)[i + 1]? = some w2) :
    (∃ t, succLookup (g.train lp line).states w1 w2 = some t ∧ 1 ≤ t.count) ∧
    ∀ s : List (Wording × State),
      succCount (trainPair s w1 w2) w1 w2 = succCount s w1 w2 + 1 ∧
      succKeys (trainPair s w1 w2) w1 =
        (if w2 ∈ succKeys s w1 then succKeys s w1 else succKeys s w1 ++ [w2]) := by
  constructor
  · have hmem := mem_tupleWindows _ i w1 w2 h1 h2
    have hst : (g.train lp line).states =
        (tupleWindows (MarkovChainGenerator.chunk_line lp line)).foldl
          (fun s p => trainPair s p.1 p.2) g.states := rfl
    have hc : 1 ≤ succCount (g.train lp line).states w1 w2 := by
      rw [hst]
      exact succCount_foldl_of_mem _ g.states w1 w2 hmem
    cases hsl : succLookup (g.train lp line).states w1 w2 with
    | none =>
      rw [succCount, hsl] at hc
      simp at hc
    | some t =>
      refine ⟨t, rfl, ?_⟩
      rw [succCount, hsl] at hc
      simpa using hc
  · intro s
    refine ⟨?_, succKeys_trainPair_self s w1 w2⟩
    rw [succCount_trainPair]
    simp

/-- C3 witness: concrete instance on the line `"a b"` with
`wording_size = 1`, pair `(["a"], ["b"])` at index 0. -/
theorem train_records_adjacent_pairs_and_increments_once_witness :
    (∃ t, succLookup (MarkovChainGenerator.new.train ⟨1⟩ "a b").states
        ⟨["a"]⟩ ⟨["b"]⟩ = some t ∧ 1 ≤ t.count) ∧
    ∀ s : List (Wording × State),
      succCount (trainPair s ⟨["a"]⟩ ⟨["b"]⟩) ⟨["a"]⟩ ⟨["b"]⟩ =
        succCount s ⟨["a"]⟩ ⟨["b"]⟩ + 1 ∧
      succKeys (trainPair s ⟨["a"]⟩ ⟨["b"]⟩) ⟨["a"]⟩ =
        (if ⟨["b"]⟩ ∈ succKeys s ⟨["a"]⟩ then succKeys s ⟨["a"]⟩
          else succKeys s ⟨["a"]⟩ ++ [⟨["b"]⟩]) :=
  train_records_adjacent_pairs_and_increments_once MarkovChainGenerator.new
    ⟨1⟩ "a b" 0 ⟨["a"]⟩ ⟨["b"]⟩ (by decide) (by decide)

/-- C4: chunking a non-empty token sequence with `wording_size = n ≥ 1`
produces exactly `⌈tokenCount / n⌉` Wordings, each of length `n` except
possibly the last, which is at most `n` long. -/
theorem chunking_yields_ceil_chunks (tokens : List String) (n : Nat)
    (hne : tokens ≠ []) (hn : 1 ≤ n) :
    (chunkList n tokens).length = (tokens.length + n - 1) / n ∧
    (∀ c ∈ (chunkList n tokens).dropLast, c.length = n) ∧
    (∀ c, (chunkList n tokens).getLast? = some c → c.length ≤ n) :=
  ⟨chunkList_length_eq n hn tokens.length tokens le_rfl hne,
    (chunkList_chunk_sizes n hn tokens.length tokens le_rfl).1,
    (chunkList_chunk_sizes n hn tokens.length tokens le_rfl).2⟩

/-- C4 witness: concrete instance on three tokens with `wording_size = 2`. -/
theorem chunking_yields_ceil_chunks_witness :
    (chunkList 2 ["a", "b", "c"]).length =
      ((["a", "b", "c"] : List String).length + 2 - 1) / 2 ∧
    (∀ c ∈ (chunkList 2 (["a", "b", "c"] : List String)).dropLast, c.length = 2) ∧
    (∀ c, (chunkList 2 (["a", "b", "c"] : List String)).getLast? = some c →
      c.length ≤ 2) :=
  chunking_yields_ceil_chunks ["a", "b", "c"] 2 (by decide) (by decide)

/-- C5: over any sequence of `train` calls starting from the empty generator,
a Wording is a key of the graph iff it occurs as the left element of an
adjacent Wording pair of some trained line's chunking. -/
theorem graph_keys_iff_observed_predecessor
    (inputs : List (LearningParameters × String)) (w : Wording) :
    w ∈ (trainAll MarkovChainGenerator.new inputs).states.map Prod.fst ↔
      ∃ pl ∈ inputs,
        w ∈ (tupleWindows (MarkovChainGenerator.chunk_line pl.1 pl.2)).map
          Prod.fst := by
  rw [keys_trainAll_aux]
  simp [MarkovChainGenerator.new]

/-- C6: a successful `generate_chain` walk visits a non-empty chain of at
most `1 + max_state_traversal.unwrap_or(usize::MAX)` wordings, and if it
stops before the bound then its last wording is a dead end (absent from the
graph). -/
theorem generate_chain_stops_at_bound_or_dead_end
    (g : MarkovChainGenerator) (p : ChainParameters) (rng : Nat → Nat)
    (chain : List Wording)
    (h : g.generate_words p rng = GenWords.ok chain) :
    chain ≠ [] ∧
    chain.length ≤ 1 + p.max_state_traversal.getD USIZE_MAX ∧
    (chain.length < 1 + p.max_state_traversal.getD USIZE_MAX →
      ∃ w, chain.getLast? = some w ∧ alookup g.states w = none) := by
  obtain ⟨key, rest, rfl, hk, hg⟩ := generate_words_ok_elim g p rng chain h
  obtain ⟨hlen, hdead⟩ := genLoop_spec g.states rng _ 1 key rest hg
  refine ⟨by simp, ?_, ?_⟩
  · simp only [List.length_cons]
    omega
  · intro hlt
    simp only [List.length_cons] at hlt
    exact hdead (by omega)

/-- C6 witness: a one-edge graph `["a"] → ["b"]` with bound 5 stops at the
dead end `["b"]` after one hop. -/
theorem generate_chain_stops_at_bound_or_dead_end_witness :
    ([⟨["a"]⟩, ⟨["b"]⟩] : List Wording) ≠ [] ∧
    ([⟨["a"]⟩, ⟨["b"]⟩] : List Wording).length ≤
      1 + (ChainParameters.mk (some 5)).max_state_traversal.getD USIZE_MAX ∧
    (([⟨["a"]⟩, ⟨["b"]⟩] : List Wording).length <
        1 + (ChainParameters.mk (some 5)).max_state_traversal.getD USIZE_MAX →
      ∃ w, ([⟨["a"]⟩, ⟨["b"]⟩] : List Wording).getLast? = some w ∧
        alookup (MarkovChainGenerator.mk
          [(⟨["a"]⟩, ⟨[(⟨["b"]⟩, ⟨1⟩)]⟩)]).states w = none) :=
  generate_chain_stops_at_bound_or_dead_end
    (MarkovChainGenerator.mk [(⟨["a"]⟩, ⟨[(⟨["b"]⟩, ⟨1⟩)]⟩)])
    (ChainParameters.mk (some 5)) (fun _ => 0) [⟨["a"]⟩, ⟨["b"]⟩] (by decide)

/-- C7: with `max_state_traversal = 0` and a non-empty graph, the output is
exactly the display text of the randomly chosen starting Wording, with no
separator and no successor appended. -/
theorem generate_chain_zero_traversal_returns_start_text
    (g : MarkovChainGenerator) (rng : Nat → Nat) (key : Wording)
    (hk : (g.states.map Prod.fst)[rng 0 % g.states.length]? = some key) :
    g.generate_chain ⟨some 0⟩ rng = GenResult.ok (Wording.fmt key) := by
  have hz : ¬g.states.length = 0 := by
    intro h0
    rw [List.getElem?_eq_none (by simp [h0])] at hk
    cases hk
  unfold MarkovChainGenerator.generate_chain
  unfold MarkovChainGenerator.generate_words
  rw [if_neg hz]
  dsimp only
  rw [hk]
  dsimp only [Option.getD, genLoop, renderChain]
  rfl

/-- C7 witness: concrete one-edge graph, zero traversal bound. -/
theorem generate_chain_zero_traversal_returns_start_text_witness :
    (MarkovChainGenerator.mk
        [(⟨["a"]⟩, ⟨[(⟨["b"]⟩, ⟨1⟩)]⟩)]).generate_chain ⟨some 0⟩ (fun _ => 0) =
      GenResult.ok (Wording.fmt ⟨["a"]⟩) :=
  generate_chain_zero_traversal_returns_start_text
    (MarkovChainGenerator.mk [(⟨["a"]⟩, ⟨[(⟨["b"]⟩, ⟨1⟩)]⟩)])
    (fun _ => 0) ⟨["a"]⟩ (by decide)

/-- C8: every successful walk only ever moves from a wording to a member of
that wording's stored successor set. -/
theorem generate_chain_moves_only_to_successors
    (g : MarkovChainGenerator) (p : ChainParameters) (rng : Nat → Nat)
    (chain : List Wording)
    (h : g.generate_words p rng = GenWords.ok chain) :
    List.Chain'
      (fun a b => ∃ st, alookup g.states a = some st ∧ b ∈ st.nexts.map Prod.fst)
      chain := by
  obtain ⟨key, rest, rfl, hk, hg⟩ := generate_words_ok_elim g p rng chain h
  exact genLoop_chain g.states rng _ 1 key rest hg

/-- C8 witness: the walk `["a"], ["b"]` on the one-edge graph respects the
successor sets. -/
theorem generate_chain_moves_only_to_successors_witness :
    List.Chain'
      (fun a b => ∃ st, alookup (MarkovChainGenerator.mk
        [(⟨["a"]⟩, ⟨[(⟨["b"]⟩, ⟨1⟩)]⟩)]).states a = some st ∧
        b ∈ st.nexts.map Prod.fst)
      [⟨["a"]⟩, ⟨["b"]⟩] :=
  generate_chain_moves_only_to_successors
    (MarkovChainGenerator.mk [(⟨["a"]⟩, ⟨[(⟨["b"]⟩, ⟨1⟩)]⟩)])
    (ChainParameters.mk (some 5)) (fun _ => 0) [⟨["a"]⟩, ⟨["b"]⟩] (by decide)

/-- C9: on the two-line scenario the Weechat noise filter and cleanup retain
exactly the alice line, stripped to `"hi there"`. -/
theorem weechat_filter_retains_only_author_line :
    WeechatLogTrainer.cleanup "alice"
      (WeechatLogTrainer.filter_noise
        ["10:00:00 alice hi there", "10:00:01 bob ignore me"]) = ["hi there"] := by
  decide

/-- C10: every graph built by `train` calls from the empty generator stores
only states with a non-empty successor map whose counts are all at least 1,
and on any graph with that invariant the generation loop's successor
selection never sees an empty range (never panics). -/
theorem trained_graph_states_nonempty_and_counts_positive
    (inputs : List (LearningParameters × String)) :
    GoodGraph (trainAll MarkovChainGenerator.new inputs).states ∧
    ∀ (g : MarkovChainGenerator) (rng : Nat → Nat) (fuel i : Nat)
      (key : Wording), GoodGraph g.states →
        genLoop g.states rng fuel i key ≠ none := by
  constructor
  · refine goodGraph_trainAll inputs _ ?_
    intro p hp
    simp [MarkovChainGenerator.new] at hp
  · intro g rng fuel i key hgood
    exact genLoop_no_panic g.states rng hgood fuel i key

/-- C10 witness: the invariant holds for the graph trained on `"a b"`, and
the loop on a concrete good graph returns without panicking. -/
theorem trained_graph_states_nonempty_and_counts_positive_witness :
    GoodGraph (trainAll MarkovChainGenerator.new [(⟨1⟩, "a b")]).states ∧
    genLoop (MarkovChainGenerator.mk
        [(⟨["a"]⟩, ⟨[(⟨["b"]⟩, ⟨1⟩)]⟩)]).states (fun _ => 0) 3 1 ⟨["a"]⟩ ≠
      none :=
  ⟨(trained_graph_states_nonempty_and_counts_positive [(⟨1⟩, "a b")]).1,
    (trained_graph_states_nonempty_and_counts_positive []).2
      (MarkovChainGenerator.mk [(⟨["a"]⟩, ⟨[(⟨["b"]⟩, ⟨1⟩)]⟩)])
      (fun _ => 0) 3 1 ⟨["a"]⟩
      (by unfold GoodGraph; decide)⟩

end Impersonate
